import Mathlib

/-!
Verification of the s3bacup streaming-backup tool against its specification.

The development shallowly embeds the Go sources:

* `pkg/crypto` (stream.go): the authenticated encryption container
  (`StreamEncryptor.WrapWriter`, `EncryptWriter.Write/Close`,
  `WrapReaderWithHMAC`, `decryptReaderWithHMACImpl.Read/Close`).
* `pkg/uploader` (uploader.go): `Uploader.Upload`, `readChunks`,
  `sortParts`, `getBuffer`/`putBuffer`.
* `pkg/archive` (archiver.go, tar.go): `Archiver.archivePath`,
  `archiveDir`, `archiveFile`, `archiveSymlink`, `isExcluded`,
  `isPathSafe`.
* `pkg/storage` (adapter.go): `normalizeEndpoint`.

Bytes are modelled as `Nat` (all byte values stay below 256 when the
inputs do, since `Nat.xor` of two values below 256 is below 256).
The AES-256-CTR keystream derived from (key, IV) is abstracted as a
function `ks : Nat → Nat` giving the keystream byte at each offset, and
HMAC-SHA-512 as a function `hmacF : List Nat → List Nat` from the exact
byte sequence fed to it; the container logic under verification never
inspects their internals.  The underlying `io.Writer` sink is modelled
as an in-memory byte buffer that always accepts a full write, and the
underlying `io.Reader` source as a byte list with `bytes.Reader`
semantics (a `Read` into a buffer of size `b` delivers
`min b remaining` bytes and reports 0 only at end of stream).
-/

namespace S3bacup

/-- CTR-mode `XORKeyStream` starting at keystream offset `off`:
byte `i` of the input is XORed with keystream byte `off + i`.
Successive calls on one cipher continue at the next offset, which the
model threads explicitly. -/
def ctrEnc (ks : Nat → Nat) : Nat → List Nat → List Nat
  | _, [] => []
  | off, b :: rest => (b ^^^ ks off) :: ctrEnc ks (off + 1) rest

/-- `binary.BigEndian.PutUint64`: the 8-byte big-endian encoding of `n`
(truncated to 64 bits exactly as the Go `uint64` conversion does). -/
def be64 (n : Nat) : List Nat :=
  [n / 2 ^ 56 % 256, n / 2 ^ 48 % 256, n / 2 ^ 40 % 256, n / 2 ^ 32 % 256,
   n / 2 ^ 24 % 256, n / 2 ^ 16 % 256, n / 2 ^ 8 % 256, n % 256]

/-- The container magic, the four ASCII bytes of "S3BE". -/
def magicBytes : List Nat := [83, 51, 66, 69]

/-- State of `EncryptWriter` (stream.go): `position` counts the bytes
written so far (which also equals the CTR keystream offset, since every
write advances the stream by the write's length), `macInput` is the
byte sequence fed to the incremental HMAC so far, and `out` is the byte
buffer accumulated by the underlying writer. -/
structure EncryptWriter where
  position : Nat
  macInput : List Nat
  out : List Nat
deriving DecidableEq

/-- `StreamEncryptor.WrapWriter`: writes the magic and the 16-byte IV to
the sink and returns a fresh writer with position 0 and an empty HMAC. -/
def WrapWriter (iv : List Nat) : EncryptWriter :=
  { position := 0, macInput := [], out := magicBytes ++ iv }

/-- `EncryptWriter.Write`: a zero-length write returns immediately;
otherwise the plaintext is encrypted with the CTR stream, the ciphertext
is fed to the HMAC and written to the sink, and `position` advances by
the number of bytes written.  The only error source in the Go code is
the underlying writer; the in-memory sink modelled here accepts every
write, so both branches return `.ok`. -/
def EncryptWriter.Write (ew : EncryptWriter) (ks : Nat → Nat) (p : List Nat) :
    Except String (EncryptWriter × Nat) :=
  if p.isEmpty then .ok (ew, 0)
  else
    let encrypted := ctrEnc ks ew.position p
    .ok ({ position := ew.position + encrypted.length,
           macInput := ew.macInput ++ encrypted,
           out := ew.out ++ encrypted }, encrypted.length)

/-- `EncryptWriter.Close`: writes the 8-byte big-endian data length and
then the 64-byte HMAC sum.  It sets no flag on the writer: the returned
state differs from the input only in the emitted bytes. -/
def EncryptWriter.Close (hmacF : List Nat → List Nat) (ew : EncryptWriter) :
    EncryptWriter :=
  { ew with out := ew.out ++ be64 ew.position ++ hmacF ew.macInput }

/-- A sequence of `Write` calls folded over the writer state. -/
def encWriteAll (ew : EncryptWriter) (ks : Nat → Nat) :
    List (List Nat) → EncryptWriter
  | [] => ew
  | p :: ps =>
    match ew.Write ks p with
    | .ok r => encWriteAll r.1 ks ps
    | .error _ => ew

/-- Concatenation of the write chunks: the whole plaintext. -/
def joinList : List (List Nat) → List Nat
  | [] => []
  | a :: r => a ++ joinList r

/-- The full byte stream emitted by `WrapWriter`, a sequence of `Write`
calls, and `Close`. -/
def encryptContainer (ks : Nat → Nat) (hmacF : List Nat → List Nat)
    (iv : List Nat) (chunks : List (List Nat)) : List Nat :=
  (EncryptWriter.Close hmacF (encWriteAll (WrapWriter iv) ks chunks)).out

theorem ctrEnc_length (ks : Nat → Nat) (o : Nat) (p : List Nat) :
    (ctrEnc ks o p).length = p.length := by
  induction p generalizing o with
  | nil => rfl
  | cons b rest ih => simp [ctrEnc, ih]

theorem ctrEnc_append (ks : Nat → Nat) (o : Nat) (a b : List Nat) :
    ctrEnc ks o (a ++ b) = ctrEnc ks o a ++ ctrEnc ks (o + a.length) b := by
  induction a generalizing o with
  | nil => simp [ctrEnc]
  | cons x xs ih =>
    simp only [List.cons_append, ctrEnc, List.length_cons, List.append_eq]
    rw [ih]
    have h : o + 1 + xs.length = o + (xs.length + 1) := by omega
    rw [h]

theorem encWriteAll_spec (ks : Nat → Nat) (chunks : List (List Nat))
    (ew : EncryptWriter) :
    encWriteAll ew ks chunks
      = { position := ew.position + (joinList chunks).length,
          macInput := ew.macInput ++ ctrEnc ks ew.position (joinList chunks),
          out := ew.out ++ ctrEnc ks ew.position (joinList chunks) } := by
  induction chunks generalizing ew with
  | nil => simp [encWriteAll, joinList, ctrEnc]
  | cons p ps ih =>
    by_cases hp : p = []
    · subst hp
      simp [encWriteAll, EncryptWriter.Write, joinList, ih]
    · have hpe : p.isEmpty = false := by
        cases p with
        | nil => exact absurd rfl hp
        | cons a b => rfl
      simp only [encWriteAll, EncryptWriter.Write, hpe, Bool.false_eq_true,
        if_false, ih]
      simp [joinList, ctrEnc_append, ctrEnc_length, List.append_assoc,
        Nat.add_assoc, List.length_append]

/-- C2: the encrypt writer emits exactly
magic ++ IV ++ ciphertext ++ BE64 length ++ HMAC(ciphertext),
where the ciphertext is the CTR encryption of the concatenated writes,
the length field encodes the plaintext length, and the tag is computed
over exactly the ciphertext bytes (not the header, not the length field,
not itself).  The stated byte widths (4, 16, N, 8, 64) are included. -/
theorem encryptContainer_layout (ks : Nat → Nat) (hmacF : List Nat → List Nat)
    (iv : List Nat) (chunks : List (List Nat))
    (hiv : iv.length = 16) (hh : ∀ m, (hmacF m).length = 64) :
    encryptContainer ks hmacF iv chunks
        = magicBytes ++ iv ++ ctrEnc ks 0 (joinList chunks)
            ++ be64 (joinList chunks).length
            ++ hmacF (ctrEnc ks 0 (joinList chunks))
      ∧ (ctrEnc ks 0 (joinList chunks)).length = (joinList chunks).length
      ∧ magicBytes.length = 4 ∧ iv.length = 16
      ∧ (be64 (joinList chunks).length).length = 8
      ∧ (hmacF (ctrEnc ks 0 (joinList chunks))).length = 64 := by
  refine ⟨?_, ctrEnc_length ks 0 _, rfl, hiv, rfl, hh _⟩
  simp [encryptContainer, EncryptWriter.Close, encWriteAll_spec, WrapWriter,
    List.append_assoc]

/-- Witness for `encryptContainer_layout` at a concrete keystream, HMAC,
IV and write sequence. -/
theorem encryptContainer_layout_witness :
    (List.replicate 16 0 : List Nat).length = 16
      ∧ encryptContainer (fun _ => 0) (fun _ => List.replicate 64 0)
            (List.replicate 16 0) [[1, 2], [3]]
          = magicBytes ++ List.replicate 16 0
              ++ ctrEnc (fun _ => 0) 0 (joinList [[1, 2], [3]])
              ++ be64 (joinList [[1, 2], [3]]).length
              ++ (fun _ => List.replicate 64 (0 : Nat))
                   (ctrEnc (fun _ => 0) 0 (joinList [[1, 2], [3]])) :=
  ⟨by decide,
   (encryptContainer_layout (fun _ => 0) (fun _ => List.replicate 64 0)
      (List.replicate 16 0) [[1, 2], [3]] (by decide)
      (fun _ => by simp)).1⟩

/-- State of `decryptReaderWithHMACImpl` (stream.go): `src` is what
remains of the underlying reader, `position` counts the bytes read so
far (also the CTR keystream offset), and `macInput` is the byte
sequence fed to the HMAC so far.  The Go struct's 32 KiB scratch buffer
`d.buffer` appears as the constant 32768 in `Read`. -/
structure DecryptReaderH where
  src : List Nat
  position : Nat
  macInput : List Nat
deriving DecidableEq

/-- `StreamEncryptor.WrapReaderWithHMAC`: read the 20-byte header, check
the magic, and start the verifying reader on the rest of the stream.
The IV read from bytes 4..19 keys the CTR stream, which the model
abstracts as the ambient keystream function. -/
def WrapReaderWithHMAC (container : List Nat) : Except String DecryptReaderH :=
  if container.length < 20 then .error "failed to read header"
  else if container.take 4 ≠ magicBytes then .error "invalid magic"
  else .ok { src := container.drop 20, position := 0, macInput := [] }

/-- `decryptReaderWithHMACImpl.Read` with a destination of length
`pLen`: a zero-length destination returns immediately; otherwise the
reader fills its 32768-byte scratch buffer from the source (delivering
`n = min 32768 |src|` bytes), reports end of stream when `n = 0`,
decrypts all `n` bytes, feeds all `n` source bytes to the HMAC, copies
the first `pLen` decrypted bytes into the destination, and returns `n`. -/
def DecryptReaderH.Read (d : DecryptReaderH) (ks : Nat → Nat) (pLen : Nat) :
    Option (Nat × List Nat × DecryptReaderH) :=
  if pLen = 0 then some (0, [], d)
  else
    let n := min 32768 d.src.length
    if n = 0 then none
    else
      some (n, (ctrEnc ks d.position (d.src.take n)).take pLen,
        { src := d.src.drop n, position := d.position + n,
          macInput := d.macInput ++ d.src.take n })

/-- `decryptReaderWithHMACImpl.Close`: read 64 more bytes from the
source as the expected HMAC and compare them with the computed sum
(`io.ReadFull` fails when fewer than 64 bytes remain). -/
def DecryptReaderH.Close (d : DecryptReaderH) (hmacF : List Nat → List Nat) :
    Except String Unit :=
  if d.src.length < 64 then .error "failed to read HMAC"
  else if hmacF d.macInput = d.src.take 64 then .ok ()
  else .error "HMAC verification failed"

/-- Reading to end of stream: repeated `Read` calls with a 32768-byte
destination (so every delivered byte is kept — the most favourable
consumer).  Each successful call consumes at least one source byte, so
`|src|` steps of fuel always reach end of stream. -/
def readAllLoop (ks : Nat → Nat) : Nat → DecryptReaderH → List Nat × DecryptReaderH
  | 0, d => ([], d)
  | fuel + 1, d =>
    match d.Read ks 32768 with
    | none => ([], d)
    | some (_, out, d') =>
      let r := readAllLoop ks fuel d'
      (out ++ r.1, r.2)

/-- `io.ReadAll`-style drain of the verifying reader. -/
def readAll (ks : Nat → Nat) (d : DecryptReaderH) : List Nat × DecryptReaderH :=
  readAllLoop ks d.src.length d

/-- The full round trip of the spec's container property: encrypt the
plaintext with `WrapWriter`/`Write`/`Close`, then open the produced
container with `WrapReaderWithHMAC`, read to end of stream, and `Close`
the reader.  Returns the decrypted bytes only when `Close` reports
successful authentication. -/
def roundTrip (ks : Nat → Nat) (hmacF : List Nat → List Nat)
    (iv : List Nat) (plaintext : List Nat) : Except String (List Nat) :=
  match WrapReaderWithHMAC (encryptContainer ks hmacF iv [plaintext]) with
  | .error e => .error e
  | .ok d =>
    let r := readAll ks d
    match r.2.Close hmacF with
    | .ok _ => .ok r.1
    | .error e => .error e

/-- C1 (round trip fails): the verifying reader has no notion of where
the ciphertext ends, so reading to end of stream also decrypts and
HMACs the 8-byte length field and the 64-byte tag; `Close` then finds
an exhausted source and fails.  Evaluated at the failing input: the
identically-zero keystream, a constant HMAC, the zero IV and plaintext
`[1, 2, 3]`; the claimed successful round trip instead errors out, so
no plaintext is ever reported as authenticated. -/
theorem roundTrip_fails_at_failing_input :
    roundTrip (fun _ => 0) (fun _ => List.replicate 64 0)
        (List.replicate 16 0) [1, 2, 3]
      = .error "failed to read HMAC"
    ∧ (readAll (fun _ => 0)
          { src := (encryptContainer (fun _ => 0) (fun _ => List.replicate 64 0)
                      (List.replicate 16 0) [[1, 2, 3]]).drop 20,
            position := 0, macInput := [] }).1
        ≠ [1, 2, 3] := by
  constructor
  · rfl
  · decide

/-- The writer used in the write-after-close counterexample: wrap the
zero IV, write `[1, 2, 3]`, and close with a constant HMAC. -/
def closedWriterEx : EncryptWriter :=
  EncryptWriter.Close (fun _ => List.replicate 64 0)
    (encWriteAll (WrapWriter (List.replicate 16 0)) (fun _ => 0) [[1, 2, 3]])

/-- C8 counterexample: `EncryptWriter` keeps no closed flag, so a
`Write` after `Close` does not fail — it succeeds and appends one more
ciphertext byte after the already-emitted length field and HMAC. -/
theorem write_after_close_succeeds :
    (closedWriterEx.Write (fun _ => 0) [7]).isOk = true
    ∧ (closedWriterEx.Write (fun _ => 0) [7]).toOption.map
          (fun r => r.1.out.length)
        = some (closedWriterEx.out.length + 1) := by
  constructor
  · rfl
  · decide

/-- C8 amended: after `Close` the writer is not sealed.  A subsequent
non-empty `Write` succeeds, encrypts at the pre-close keystream
position, feeds the new ciphertext to the HMAC state, and appends it to
the sink after the length field and tag. -/
theorem write_after_close_not_sealed (ks : Nat → Nat)
    (hmacF : List Nat → List Nat) (ew : EncryptWriter) (p : List Nat)
    (hp : p ≠ []) :
    (EncryptWriter.Close hmacF ew).Write ks p
      = .ok ({ position := ew.position + p.length,
               macInput := ew.macInput ++ ctrEnc ks ew.position p,
               out := ew.out ++ be64 ew.position ++ hmacF ew.macInput
                        ++ ctrEnc ks ew.position p }, p.length) := by
  have hpe : p.isEmpty = false := by
    cases p with
    | nil => exact absurd rfl hp
    | cons a b => rfl
  simp [EncryptWriter.Write, EncryptWriter.Close, hpe, ctrEnc_length,
    List.append_assoc]

/-- Witness for `write_after_close_not_sealed` at the concrete closed
writer and the one-byte write `[7]`. -/
theorem write_after_close_not_sealed_witness :
    ([7] : List Nat) ≠ []
    ∧ (EncryptWriter.Close (fun _ => List.replicate 64 0)
          (encWriteAll (WrapWriter (List.replicate 16 0)) (fun _ => 0)
            [[1, 2, 3]])).Write (fun _ => 0) [7]
        = .ok ({ position :=
                   (encWriteAll (WrapWriter (List.replicate 16 0)) (fun _ => 0)
                     [[1, 2, 3]]).position + 1,
                 macInput :=
                   (encWriteAll (WrapWriter (List.replicate 16 0)) (fun _ => 0)
                     [[1, 2, 3]]).macInput
                     ++ ctrEnc (fun _ => 0)
                          (encWriteAll (WrapWriter (List.replicate 16 0))
                            (fun _ => 0) [[1, 2, 3]]).position [7],
                 out :=
                   (encWriteAll (WrapWriter (List.replicate 16 0)) (fun _ => 0)
                     [[1, 2, 3]]).out
                     ++ be64 (encWriteAll (WrapWriter (List.replicate 16 0))
                          (fun _ => 0) [[1, 2, 3]]).position
                     ++ (fun _ => List.replicate 64 (0 : Nat))
                          (encWriteAll (WrapWriter (List.replicate 16 0))
                            (fun _ => 0) [[1, 2, 3]]).macInput
                     ++ ctrEnc (fun _ => 0)
                          (encWriteAll (WrapWriter (List.replicate 16 0))
                            (fun _ => 0) [[1, 2, 3]]).position [7] }, 1) :=
  ⟨by decide,
   write_after_close_not_sealed (fun _ => 0) (fun _ => List.replicate 64 0)
     (encWriteAll (WrapWriter (List.replicate 16 0)) (fun _ => 0) [[1, 2, 3]])
     [7] (by decide)⟩

/-- C9: on a non-empty destination and a non-exhausted source, `Read`
delivers `n = min 32768 |src|` source bytes — a count independent of the
destination size, so `n` can exceed it — copies only the first `pLen`
decrypted bytes into the destination (the rest are dropped), yet still
advances the keystream offset and the HMAC input by all `n` bytes. -/
theorem read_returns_source_count (ks : Nat → Nat) (d : DecryptReaderH)
    (pLen : Nat) (hp : 0 < pLen) (hs : d.src ≠ []) :
    d.Read ks pLen
        = some (min 32768 d.src.length,
            (ctrEnc ks d.position (d.src.take (min 32768 d.src.length))).take pLen,
            { src := d.src.drop (min 32768 d.src.length),
              position := d.position + min 32768 d.src.length,
              macInput := d.macInput ++ d.src.take (min 32768 d.src.length) })
    ∧ ((ctrEnc ks d.position (d.src.take (min 32768 d.src.length))).take
          pLen).length
        = min pLen (min 32768 d.src.length) := by
  have hlen : 0 < d.src.length := List.length_pos.mpr hs
  have hn : ¬ (min 32768 d.src.length = 0) := by omega
  constructor
  · simp [DecryptReaderH.Read, hn, Nat.pos_iff_ne_zero.mp hp]
  · simp [List.length_take, ctrEnc_length]

/-- Witness for `read_returns_source_count`: a 100-byte source and a
5-byte destination; the reader reports 100 bytes read while handing
back only 5. -/
theorem read_returns_source_count_witness :
    0 < 5
    ∧ ({ src := List.replicate 100 9, position := 0, macInput := [] }
          : DecryptReaderH).src ≠ []
    ∧ ({ src := List.replicate 100 9, position := 0, macInput := [] }
          : DecryptReaderH).Read (fun _ => 0) 5
        = some (min 32768 (List.replicate 100 9 : List Nat).length,
            (ctrEnc (fun _ => 0) 0 ((List.replicate 100 9 : List Nat).take
                (min 32768 (List.replicate 100 9 : List Nat).length))).take 5,
            { src := (List.replicate 100 9 : List Nat).drop
                (min 32768 (List.replicate 100 9 : List Nat).length),
              position := 0 + min 32768 (List.replicate 100 9 : List Nat).length,
              macInput := [] ++ (List.replicate 100 9 : List Nat).take
                (min 32768 (List.replicate 100 9 : List Nat).length) }) :=
  ⟨by decide, by decide,
   (read_returns_source_count (fun _ => 0)
      { src := List.replicate 100 9, position := 0, macInput := [] }
      5 (by decide) (by decide)).1⟩

/-- `storage.CompletedPart` (adapter.go). -/
structure CompletedPart where
  PartNumber : Nat
  ETag : String
deriving DecidableEq

/-- One call `Uploader.Upload` makes against the `StorageAdapter`. -/
inductive AdapterCall where
  | init : AdapterCall
  | uploadPart (partNumber : Nat) : AdapterCall
  | complete (parts : List CompletedPart) : AdapterCall
  | abort : AdapterCall
deriving DecidableEq

/-- Is the call a `CompleteMultipartUpload`? -/
def isCompleteCall : AdapterCall → Bool
  | .complete _ => true
  | _ => false

/-- `Uploader.sortParts` (uploader.go): `sort.Slice` by ascending
`PartNumber`, modelled by an insertion sort with the same ordering. -/
def sortParts (parts : List CompletedPart) : List CompletedPart :=
  List.insertionSort (fun a b => a.PartNumber ≤ b.PartNumber) parts

/-- `Uploader.Upload` (uploader.go, the variant with the named return
value `err`) as the set of adapter calls one run makes, with the
environment and the scheduler as oracles:

* `initOk`/`partOk`/`completeOk` say which adapter calls succeed;
* `attempted` lists the part numbers the workers hand to `UploadPart`
  during the run, in an arbitrary serialisation of the concurrent
  calls: a worker already holding a chunk keeps calling `UploadPart`
  while — and after — the run is failing, and after one worker dies
  the rest keep draining the chunk queue, so this list is not
  determined by the failing part;
* `readErr` says whether `readChunks` hit a read error;
* `errWins` resolves the select race in the result loop
  (uploader.go:377-403): a worker or reader error sits in the buffered
  error channel while `readDone` and the eventually-closed result
  channel are also ready, and Go's `select` picks uniformly among the
  ready cases — so the error may be received (`errWins = true`: error
  return, deferred abort) or never be picked before the result channel
  closes (`errWins = false`: the loop reaches `goto complete` and
  calls `CompleteMultipartUpload` with whatever results were
  collected);
* `arrival` is the order in which worker results were taken off the
  result channel (one entry per successfully uploaded part).

The trace records which adapter calls the run makes, not their
real-time interleaving.  The deferred `AbortMultipartUpload` runs
exactly once on every error return after a successful init, including
after a failed `CompleteMultipartUpload`; on a failed init, `Upload`
returns before any worker is spawned. -/
def uploadRun (initOk : Bool) (attempted : List Nat) (arrival : List Nat)
    (etagOf : Nat → String) (partOk : Nat → Bool) (readErr : Bool)
    (errWins : Bool) (completeOk : Bool) :
    Except String Unit × List AdapterCall :=
  if initOk = false then
    (.error "failed to init multipart upload", [.init])
  else
    let pcalls := attempted.map AdapterCall.uploadPart
    if (readErr || attempted.any fun n => !partOk n) && errWins then
      (.error (if attempted.any (fun n => !partOk n) then "failed to upload part"
               else "failed to read data"),
       .init :: pcalls ++ [.abort])
    else
      let ps := sortParts (arrival.map fun n => { PartNumber := n, ETag := etagOf n })
      if completeOk then (.ok (), .init :: pcalls ++ [.complete ps])
      else (.error "failed to complete multipart upload",
            .init :: pcalls ++ [.complete ps, .abort])

theorem mem_map_uploadPart {attempted : List Nat} {c : AdapterCall}
    (hc : c ∈ attempted.map AdapterCall.uploadPart) :
    ∃ n, c = AdapterCall.uploadPart n := by
  rcases List.mem_map.mp hc with ⟨n, _, hn⟩
  exact ⟨n, hn.symm⟩

theorem count_abort_uploadParts (attempted : List Nat) :
    (attempted.map AdapterCall.uploadPart).count AdapterCall.abort = 0 := by
  rw [List.count_eq_zero]
  intro h
  rcases mem_map_uploadPart h with ⟨n, hn⟩
  exact AdapterCall.noConfusion hn

theorem countP_complete_uploadParts (attempted : List Nat) :
    (attempted.map AdapterCall.uploadPart).countP isCompleteCall = 0 := by
  rw [List.countP_eq_zero]
  intro c hc
  rcases mem_map_uploadPart hc with ⟨n, hn⟩
  subst hn
  simp [isCompleteCall]

theorem countP_complete_comp (attempted : List Nat) :
    attempted.countP (isCompleteCall ∘ AdapterCall.uploadPart) = 0 := by
  rw [List.countP_eq_zero]
  intro a _
  simp [isCompleteCall, Function.comp]

/-- C3 counterexample: a run in which every part uploads fine but
`CompleteMultipartUpload` itself fails returns an error after a
successful init — yet `CompleteMultipartUpload` has been called, so the
claim "on every error run with successful init, complete is not called"
is false on the code. -/
theorem upload_error_run_calls_complete :
    (uploadRun true [] [] (fun _ => "") (fun _ => true) false false false).1
        = .error "failed to complete multipart upload"
    ∧ AdapterCall.complete []
        ∈ (uploadRun true [] [] (fun _ => "") (fun _ => true) false false
            false).2 := by
  constructor
  · rfl
  · decide

/-- C3 amended: on every error-returning run, (a) if init succeeded,
the deferred abort makes `AbortMultipartUpload` run exactly once before
`Upload` returns, and `CompleteMultipartUpload` has been called at most
once — it may have been called, when it itself failed, or when a worker
or read error lost the select race and the complete issued with the
partial results then failed; (b) if init failed, the run's only adapter
call is the failed `init` — no abort, and no part upload is attempted. -/
theorem upload_abort_on_failure (initOk : Bool) (attempted arrival : List Nat)
    (etagOf : Nat → String) (partOk : Nat → Bool)
    (readErr errWins completeOk : Bool) (e : String)
    (herr : (uploadRun initOk attempted arrival etagOf partOk readErr errWins
               completeOk).1 = .error e) :
    (initOk = true →
        (uploadRun initOk attempted arrival etagOf partOk readErr errWins
            completeOk).2.count AdapterCall.abort = 1
        ∧ (uploadRun initOk attempted arrival etagOf partOk readErr errWins
            completeOk).2.countP isCompleteCall ≤ 1)
    ∧ (initOk = false →
        (uploadRun initOk attempted arrival etagOf partOk readErr errWins
            completeOk).2 = [.init]) := by
  cases initOk with
  | false =>
    refine ⟨fun ht => absurd ht (by simp), fun _ => ?_⟩
    simp [uploadRun]
  | true =>
    refine ⟨fun _ => ?_, fun hf => absurd hf (by simp)⟩
    by_cases hg : ((readErr || attempted.any fun n => !partOk n) && errWins)
        = true
    · have htr : (uploadRun true attempted arrival etagOf partOk readErr
          errWins completeOk).2
          = .init :: attempted.map AdapterCall.uploadPart ++ [.abort] := by
        simp [uploadRun, hg]
      rw [htr]
      constructor
      · simp [List.count_cons, List.count_append, count_abort_uploadParts]
      · simp [List.countP_cons, List.countP_append, countP_complete_uploadParts,
          countP_complete_comp, isCompleteCall]
    · by_cases hc : completeOk = true
      · exfalso
        simp [uploadRun, hg, hc] at herr
      · have htr : (uploadRun true attempted arrival etagOf partOk readErr
            errWins completeOk).2
            = .init :: attempted.map AdapterCall.uploadPart
                ++ [.complete (sortParts (arrival.map
                      fun n => { PartNumber := n, ETag := etagOf n })), .abort] := by
          simp [uploadRun, hg, hc]
        rw [htr]
        constructor
        · simp [List.count_cons, List.count_append, count_abort_uploadParts]
        · simp [List.countP_cons, List.countP_append,
            countP_complete_uploadParts, countP_complete_comp, isCompleteCall]

/-- Witness for `upload_abort_on_failure`: a concrete failed run (part 1
fails and the error wins the race) with exactly one abort and no
complete, plus a failed-init run whose trace is just `[init]`. -/
theorem upload_abort_on_failure_witness :
    ((uploadRun true [1] [] (fun _ => "") (fun _ => false) false true
        true).2.count AdapterCall.abort = 1
      ∧ (uploadRun true [1] [] (fun _ => "") (fun _ => false) false true
          true).2.countP isCompleteCall ≤ 1)
    ∧ (uploadRun false [1] [] (fun _ => "") (fun _ => false) false true
        true).2 = [.init] :=
  ⟨(upload_abort_on_failure true [1] [] (fun _ => "") (fun _ => false) false
      true true "failed to upload part" rfl).1 rfl,
   (upload_abort_on_failure false [1] [] (fun _ => "") (fun _ => false) false
      true true "failed to init multipart upload" rfl).2 rfl⟩

instance : IsTotal CompletedPart (fun a b => a.PartNumber ≤ b.PartNumber) :=
  ⟨fun a b => Nat.le_total a.PartNumber b.PartNumber⟩

instance : IsTrans CompletedPart (fun a b => a.PartNumber ≤ b.PartNumber) :=
  ⟨fun _ _ _ hab hbc => Nat.le_trans hab hbc⟩

theorem sortParts_perm_arrival (arrival : List Nat) (etagOf : Nat → String) :
    ((sortParts (arrival.map fun n => { PartNumber := n, ETag := etagOf n })).map
        CompletedPart.PartNumber).Perm arrival := by
  set l := arrival.map fun n => ({ PartNumber := n, ETag := etagOf n } : CompletedPart)
  have h1 : (sortParts l).Perm l := List.perm_insertionSort _ l
  have h2 : ((sortParts l).map CompletedPart.PartNumber).Perm
      (l.map CompletedPart.PartNumber) := h1.map _
  have h3 : l.map CompletedPart.PartNumber = arrival := by
    simp only [l, List.map_map]
    exact List.map_id arrival
  rw [h3] at h2
  exact h2

theorem sortParts_map_sorted (arrival : List Nat) (etagOf : Nat → String) :
    List.Sorted (· ≤ ·)
      ((sortParts (arrival.map fun n => { PartNumber := n, ETag := etagOf n })).map
        CompletedPart.PartNumber) := by
  rw [List.Sorted, List.pairwise_map]
  exact List.sorted_insertionSort _ _

theorem sortParts_partNumbers (arrival : List Nat) (etagOf : Nat → String)
    (k : Nat) (hperm : arrival.Perm (List.range' 1 k)) :
    (sortParts (arrival.map fun n => { PartNumber := n, ETag := etagOf n })).map
        CompletedPart.PartNumber
      = List.range' 1 k := by
  have hrange_sorted : List.Sorted (· ≤ ·) (List.range' 1 k) :=
    (List.pairwise_lt_range' 1 k).imp Nat.le_of_lt
  exact List.eq_of_perm_of_sorted
    ((sortParts_perm_arrival arrival etagOf).trans hperm)
    (sortParts_map_sorted arrival etagOf) hrange_sorted

theorem sortParts_pairwise_lt (arrival : List Nat) (etagOf : Nat → String)
    (hnd : arrival.Nodup) :
    List.Pairwise (· < ·)
      ((sortParts (arrival.map fun n => { PartNumber := n, ETag := etagOf n })).map
        CompletedPart.PartNumber) := by
  have hnd' : ((sortParts (arrival.map
      fun n => { PartNumber := n, ETag := etagOf n })).map
        CompletedPart.PartNumber).Nodup :=
    (sortParts_perm_arrival arrival etagOf).nodup_iff.mpr hnd
  have hle := sortParts_map_sorted arrival etagOf
  refine (List.Pairwise.and hle hnd').imp ?_
  intro a b hab
  exact Nat.lt_of_le_of_ne hab.1 hab.2

/-- C4 counterexample: part 1 fails but the buffered worker error loses
the select race to the drained result channel, so the run reaches
`CompleteMultipartUpload` with only part 2's result — a part list whose
numbers are `[2]`: sorted, but not dense starting from 1 (for its
length that would require `[1]`).  The claim as stated is false on the
code. -/
theorem complete_parts_with_gap :
    AdapterCall.complete [{ PartNumber := 2, ETag := "e" }]
        ∈ (uploadRun true [1, 2] [2] (fun _ => "e") (fun n => n == 2) false
            false true).2
    ∧ ([{ PartNumber := 2, ETag := "e" }] : List CompletedPart).map
          CompletedPart.PartNumber
        ≠ List.range' 1 1 := by
  constructor
  · decide
  · decide

/-- C4 amended: in every run of `Upload` that calls
`CompleteMultipartUpload` — whether the run then succeeds or fails —
the part list passed to it is `sortParts` of the collected results, so
regardless of the order in which worker results arrived its part
numbers are strictly increasing whenever the collected results are
duplicate-free (the result channel carries at most one result per
part); and whenever the collected results cover exactly the parts
`1..k` — in particular in every successful run with no lost error
race — the numbers are exactly `1, 2, ..., k`, dense starting from 1.
When a part failed and the error lost the select race the list can
have gaps, so density holds only under that coverage. -/
theorem complete_parts_sorted (initOk : Bool) (attempted arrival : List Nat)
    (etagOf : Nat → String) (partOk : Nat → Bool)
    (readErr errWins completeOk : Bool) (ps : List CompletedPart)
    (hmem : AdapterCall.complete ps
              ∈ (uploadRun initOk attempted arrival etagOf partOk readErr
                  errWins completeOk).2) :
    (arrival.Nodup →
        List.Pairwise (· < ·) (ps.map CompletedPart.PartNumber))
    ∧ ∀ k, arrival.Perm (List.range' 1 k) →
        ps.map CompletedPart.PartNumber = List.range' 1 k := by
  have hps : ps = sortParts (arrival.map
      fun n => { PartNumber := n, ETag := etagOf n }) := by
    cases initOk with
    | false =>
      simp [uploadRun] at hmem
    | true =>
      by_cases hg : ((readErr || attempted.any fun n => !partOk n) && errWins)
          = true
      · simp only [uploadRun, Bool.true_eq_false, if_false, hg, if_true] at hmem
        rcases List.mem_cons.mp hmem with h | h
        · exact absurd h (by simp)
        · rcases List.mem_append.mp h with h | h
          · rcases mem_map_uploadPart h with ⟨n, hn⟩
            exact absurd hn (by simp)
          · exact absurd h (by simp)
      · have hmem' : AdapterCall.complete ps
            ∈ AdapterCall.init :: attempted.map AdapterCall.uploadPart
                ++ [AdapterCall.complete (sortParts (arrival.map
                      fun n => { PartNumber := n, ETag := etagOf n }))]
            ∨ AdapterCall.complete ps = AdapterCall.abort := by
          by_cases hc : completeOk = true
          · refine Or.inl ?_
            simpa [uploadRun, hg, hc] using hmem
          · have : AdapterCall.complete ps
                ∈ AdapterCall.init :: attempted.map AdapterCall.uploadPart
                    ++ [AdapterCall.complete (sortParts (arrival.map
                          fun n => { PartNumber := n, ETag := etagOf n })),
                        AdapterCall.abort] := by
              simpa [uploadRun, hg, hc] using hmem
            rcases List.mem_cons.mp this with h | h
            · exact absurd h (by simp)
            · rcases List.mem_append.mp h with h | h
              · exact Or.inl (List.mem_cons_of_mem _ (List.mem_append_left _ h))
              · rcases List.mem_cons.mp h with h | h
                · exact Or.inl (by
                    rw [h]
                    exact List.mem_cons_of_mem _ (List.mem_append_right _
                      (List.mem_singleton_self _)))
                · exact Or.inr (by simp at h)
        rcases hmem' with h | h
        · rcases List.mem_cons.mp h with h | h
          · exact absurd h (by simp)
          · rcases List.mem_append.mp h with h | h
            · rcases mem_map_uploadPart h with ⟨n, hn⟩
              exact absurd hn (by simp)
            · simpa using h
        · exact absurd h (by simp)
  subst hps
  exact ⟨fun hnd => sortParts_pairwise_lt arrival etagOf hnd,
         fun k hperm => sortParts_partNumbers arrival etagOf k hperm⟩

/-- Witness for `complete_parts_sorted`: an all-success run whose two
results arrive out of order (`[2, 1]`) reaches complete with part
numbers `[1, 2]` — strictly increasing and dense from 1. -/
theorem complete_parts_sorted_witness :
    List.Pairwise (· < ·)
      ((sortParts ([2, 1].map fun n => { PartNumber := n, ETag := "" })).map
        CompletedPart.PartNumber)
    ∧ (sortParts ([2, 1].map fun n => { PartNumber := n, ETag := "" })).map
        CompletedPart.PartNumber = List.range' 1 2 :=
  ⟨(complete_parts_sorted true [1, 2] [2, 1] (fun _ => "") (fun _ => true)
      false false true _ (by decide)).1 (by decide),
   (complete_parts_sorted true [1, 2] [2, 1] (fun _ => "") (fun _ => true)
      false false true _ (by decide)).2 2 (by decide)⟩

/-- The buffer pool's canonical block size: `bufferPool.New` allocates
`make([]byte, 5*1024*1024)`. -/
def poolBlockSize : Nat := 5 * 1024 * 1024

/-- Length of the buffer `getBuffer(size)` hands to the reader: the pool
supplies a canonical 5 MiB block, and only when that block is shorter
than the request (`int64(len(buf)) < size`) is a fresh buffer of exactly
`size` allocated.  When `size` is smaller than 5 MiB the pooled block is
returned whole — not truncated to `size`.  (During a single upload run
only full-length blocks are recycled before reading finishes, so the
pool block the reader sees always has the canonical length.) -/
def getBufferLen (size : Nat) : Nat :=
  if poolBlockSize < size then size else poolBlockSize

/-- `Uploader.readChunks`: repeatedly `io.ReadFull` the source into a
`getBuffer(chunkSize)` buffer — delivering `min bufLen remaining` bytes
(`ReadFull` stops early only at end of stream) — and emit
`(partNumber, buf[:n])` chunks with part numbers counting up from 1,
stopping at `n = 0`.  The fuel argument bounds the iteration count;
`data.length` steps always suffice because every emitted chunk consumes
at least one byte. -/
def readChunksLoop (chunkSize : Nat) : Nat → Nat → List Nat → List (Nat × List Nat)
  | 0, _, _ => []
  | fuel + 1, partNumber, data =>
    let n := min (getBufferLen chunkSize) data.length
    if n = 0 then []
    else (partNumber, data.take n)
        :: readChunksLoop chunkSize fuel (partNumber + 1) (data.drop n)

/-- The chunk sequence `readChunks` sends for a given source. -/
def readChunks (chunkSize : Nat) (data : List Nat) : List (Nat × List Nat) :=
  readChunksLoop chunkSize data.length 1 data

theorem getBufferLen_pos (size : Nat) : 0 < getBufferLen size := by
  unfold getBufferLen poolBlockSize
  split <;> omega

theorem getBufferLen_eq_max (size : Nat) :
    getBufferLen size = max size poolBlockSize := by
  unfold getBufferLen
  split <;> omega

/-- C5 counterexample: with `chunk_size = 1` and a 2-byte source the
single (hence last) part has size 2 > `chunk_size`, because `getBuffer`
returns the pooled 5 MiB block and `io.ReadFull` fills as much of it as
the source allows.  The claimed bound "every part has size at most
`chunk_size`" is false on the code. -/
theorem readChunks_oversized_part :
    ¬ (∀ c ∈ readChunks 1 [9, 9], c.2.length ≤ 1) := by
  intro h
  have := h (1, [9, 9]) (by decide)
  simp at this

theorem readChunksLoop_sizes (chunkSize : Nat) (fuel : Nat) :
    ∀ (pn : Nat) (data : List Nat), data.length ≤ fuel →
      (∀ c ∈ readChunksLoop chunkSize fuel pn data,
          0 < c.2.length ∧ c.2.length ≤ getBufferLen chunkSize)
      ∧ (∀ c ∈ (readChunksLoop chunkSize fuel pn data).dropLast,
          c.2.length = getBufferLen chunkSize) := by
  induction fuel with
  | zero =>
    intro pn data hlen
    constructor <;> intro c hc <;> simp [readChunksLoop] at hc
  | succ fuel ih =>
    intro pn data hlen
    by_cases hdata : data = []
    · subst hdata
      constructor <;> intro c hc <;> simp [readChunksLoop] at hc
    · have hpos : 0 < data.length := List.length_pos.mpr hdata
      have hE := getBufferLen_pos chunkSize
      have hn : ¬ (min (getBufferLen chunkSize) data.length = 0) := by omega
      have hrest := ih (pn + 1) (data.drop (min (getBufferLen chunkSize) data.length))
        (by simp only [List.length_drop]; omega)
      have htake : (data.take (min (getBufferLen chunkSize) data.length)).length
          = min (getBufferLen chunkSize) data.length := by
        simp only [List.length_take]
        omega
      constructor
      · intro c hc
        simp only [readChunksLoop, hn, if_false, List.mem_cons] at hc
        rcases hc with hc | hc
        · subst hc
          rw [htake]
          omega
        · exact hrest.1 c hc
      · intro c hc
        simp only [readChunksLoop, hn, if_false] at hc
        cases hr : readChunksLoop chunkSize fuel (pn + 1)
            (data.drop (min (getBufferLen chunkSize) data.length)) with
        | nil => rw [hr] at hc; simp at hc
        | cons r rs =>
          rw [hr, List.dropLast_cons₂, List.mem_cons] at hc
          rcases hc with hc | hc
          · subst hc
            rw [htake]
            have hlt : min (getBufferLen chunkSize) data.length < data.length := by
              by_contra hge
              have hmin : min (getBufferLen chunkSize) data.length
                  = data.length := by omega
              have : readChunksLoop chunkSize fuel (pn + 1)
                  (data.drop (min (getBufferLen chunkSize) data.length)) = [] := by
                rw [hmin, List.drop_length]
                cases fuel <;> simp [readChunksLoop]
              rw [this] at hr
              exact List.noConfusion hr
            omega
          · rw [← hr] at hc
            exact hrest.2 c hc

/-- C5 amended: every chunk `readChunks` hands to a worker except
possibly the last has size exactly `max chunk_size (5 MiB)` — the
effective buffer length `getBuffer` supplies — and the last chunk's size
is positive and at most that effective size.  Only for
`chunk_size ≥ 5 MiB` does the effective size equal `chunk_size`. -/
theorem readChunks_part_sizes (chunkSize : Nat) (data : List Nat) :
    (∀ c ∈ (readChunks chunkSize data).dropLast,
        c.2.length = max chunkSize poolBlockSize)
    ∧ (∀ c ∈ readChunks chunkSize data,
        0 < c.2.length ∧ c.2.length ≤ max chunkSize poolBlockSize) := by
  have h := readChunksLoop_sizes chunkSize data.length 1 data (Nat.le_refl _)
  rw [getBufferLen_eq_max] at h
  exact ⟨h.2, h.1⟩

/-- Witness for `readChunks_part_sizes`: a 3-byte source with
`chunk_size = 1` yields one part of size 3 — positive and at most the
5 MiB effective size. -/
theorem readChunks_part_sizes_witness :
    (1, [7, 7, 7]) ∈ readChunks 1 [7, 7, 7]
    ∧ 0 < ([7, 7, 7] : List Nat).length
    ∧ ([7, 7, 7] : List Nat).length ≤ max 1 poolBlockSize :=
  ⟨by decide,
   (readChunks_part_sizes 1 [7, 7, 7]).2 (1, [7, 7, 7]) (by decide)⟩

/-- Go `unicode.IsSpace`: the Unicode White_Space property, enumerated
exactly (Latin-1 fast path plus the White_Space code points). -/
def isSpaceGo (c : Char) : Bool :=
  c == ' ' || c == '\t' || c == '\n' || c == '\x0b' || c == '\x0c'
    || c == '\r' || c == '\x85' || c == '\xa0'
    || c.toNat == 0x1680 || (0x2000 ≤ c.toNat && c.toNat ≤ 0x200a)
    || c.toNat == 0x2028 || c.toNat == 0x2029 || c.toNat == 0x202f
    || c.toNat == 0x205f || c.toNat == 0x3000

/-- Go `strings.TrimSpace`: drop White_Space characters from both ends. -/
def trimSpaceGo (x : List Char) : List Char :=
  ((x.dropWhile isSpaceGo).reverse.dropWhile isSpaceGo).reverse

/-- Split a character list on `'/'` (the behaviour of
`strings.Split(path, "/")` for a one-character separator). -/
def splitSlash : List Char → List (List Char)
  | [] => [[]]
  | c :: rest =>
    if c = '/' then [] :: splitSlash rest
    else
      match splitSlash rest with
      | [] => [[c]]
      | h :: t => (c :: h) :: t

/-- Go `archive/tar` typeflag constants (tar.go re-exports them):
`TypeReg = '0'`, `TypeLink = '1'` (hard link), `TypeDir = '5'`; the
symlink flag `TypeSymlink = '2'` is not re-exported or used. -/
def typeReg : Nat := 48

/-- Byte value of `tar.TypeLink` ('1'). -/
def typeLink : Nat := 49

/-- Byte value of `tar.TypeSymlink` ('2'); unused by the archiver. -/
def typeSymlink : Nat := 50

/-- Byte value of `tar.TypeDir` ('5'). -/
def typeDir : Nat := 53

/-- The fields of the `TarHeader` the archiver fills that the claims
are about (mode, times, uid and gid are dropped). -/
structure TarEntry where
  name : String
  typeflag : Nat
  linkname : String
  size : Nat
deriving DecidableEq

mutual

/-- A filesystem node as `os.Lstat` classifies it: regular file,
directory, symlink (with its `os.Readlink` target), or a special node
(device, FIFO, socket).  Walk paths use forward slashes, matching the
Linux behaviour where `filepath.ToSlash` is the identity. -/
inductive FSNode where
  | file (name : String) (size : Nat) : FSNode
  | dir (name : String) (children : FSChildren) : FSNode
  | symlink (name : String) (target : String) : FSNode
  | special (name : String) : FSNode

/-- Directory listing (in `os.ReadDir` order). -/
inductive FSChildren where
  | nil : FSChildren
  | cons : FSNode → FSChildren → FSChildren

end

/-- The node's base name, as `entry.Name()` reports it. -/
def FSNode.name : FSNode → String
  | .file n _ => n
  | .dir n _ => n
  | .symlink n _ => n
  | .special n => n

/-- `Archiver.isPathSafe`: split on `/` and reject any component that is
`..` (also after `strings.TrimSpace`). -/
def isPathSafe (path : String) : Bool :=
  (splitSlash path.data).all fun comp =>
    !(comp == ['.', '.'] || trimSpaceGo comp == ['.', '.'])

/-- `Archiver.isExcluded`: does any compiled exclude glob match the
forward-slash form of the path?  The compiled `glob.Glob` matchers are
abstracted as boolean predicates on the path. -/
def isExcluded (excludes : List (String → Bool)) (path : String) : Bool :=
  excludes.any fun g => g path

mutual

/-- `Archiver.archivePath` for one node: validate the path, consult the
exclude set, then dispatch on the node kind (`archiveSymlink`,
`archiveDir`, `archiveFile`, or skip-with-warning for special nodes).
The walk path equals the archive-relative path: the top-level include is
archived under its own path and each child under
`filepath.Join(parentArchivePath, base)`, which coincides with the walk
path at every level.  Returns the tar entries written to the stream (in
order) and the error, if any, that aborted the walk; entries written
before an error remain written. -/
def archiveNode (ex : List (String → Bool)) (node : FSNode) (path : String) :
    List TarEntry × Option String :=
  if isPathSafe path = false then ([], some "path safety check failed")
  else if isExcluded ex path then ([], none)
  else
    match node with
    | .symlink _ target =>
      ([{ name := path, typeflag := typeLink, linkname := target, size := 0 }],
       none)
    | .dir _ children =>
      let r := archiveChildren ex children path
      ({ name := path ++ "/", typeflag := typeDir, linkname := "", size := 0 }
         :: r.1, r.2)
    | .file _ size =>
      if isPathSafe path = false then ([], some "path safety check failed")
      else if isExcluded ex path then ([], none)
      else ([{ name := path, typeflag := typeReg, linkname := "", size := size }],
            none)
    | .special _ => ([], none)

/-- The loop over `os.ReadDir` entries in `Archiver.archiveDir`: archive
each child at `base ++ "/" ++ name`, stopping at the first error. -/
def archiveChildren (ex : List (String → Bool)) (cs : FSChildren)
    (base : String) : List TarEntry × Option String :=
  match cs with
  | .nil => ([], none)
  | .cons c rest =>
    let r := archiveNode ex c (base ++ "/" ++ c.name)
    match r.2 with
    | some e => (r.1, some e)
    | none =>
      let r' := archiveChildren ex rest base
      (r.1 ++ r'.1, r'.2)

end

/-- C6: a walked node whose forward-slash path matches some exclude glob
contributes no tar entry at all — for a directory the walker does not
descend, so none of its descendants appear either. -/
theorem excluded_node_emits_nothing (ex : List (String → Bool))
    (node : FSNode) (path : String) (hx : isExcluded ex path = true) :
    (archiveNode ex node path).1 = [] := by
  cases hs : isPathSafe path with
  | false => cases node <;> simp [archiveNode, hs]
  | true => cases node <;> simp [archiveNode, hs, hx]

/-- Witness for `excluded_node_emits_nothing`: a directory with a child
file, matched by a concrete exclude predicate, produces no entries. -/
theorem excluded_node_emits_nothing_witness :
    isExcluded [fun p => p == "root/cache"] "root/cache" = true
    ∧ (archiveNode [fun p => p == "root/cache"]
          (.dir "cache" (.cons (.file "a.txt" 3) .nil)) "root/cache").1
        = [] :=
  ⟨by decide,
   excluded_node_emits_nothing [fun p => p == "root/cache"]
     (.dir "cache" (.cons (.file "a.txt" 3) .nil)) "root/cache" (by decide)⟩

mutual

theorem archiveNode_flags (ex : List (String → Bool)) (node : FSNode)
    (path : String) :
    ∀ e ∈ (archiveNode ex node path).1,
      e.typeflag = typeReg ∨ e.typeflag = typeLink ∨ e.typeflag = typeDir :=
  match node with
  | .file n size => by
    intro e he
    simp only [archiveNode] at he
    split at he
    · simp at he
    · split at he
      · simp at he
      · simp only [List.mem_singleton] at he
        subst he
        exact Or.inl rfl
  | .dir n children => by
    intro e he
    simp only [archiveNode] at he
    split at he
    · simp at he
    · split at he
      · simp at he
      · simp only [List.mem_cons] at he
        rcases he with he | he
        · subst he
          exact Or.inr (Or.inr rfl)
        · exact archiveChildren_flags ex children path e he
  | .symlink n target => by
    intro e he
    simp only [archiveNode] at he
    split at he
    · simp at he
    · split at he
      · simp at he
      · simp only [List.mem_singleton] at he
        subst he
        exact Or.inr (Or.inl rfl)
  | .special n => by
    intro e he
    simp only [archiveNode] at he
    split at he
    · simp at he
    · split at he
      · simp at he
      · simp at he

theorem archiveChildren_flags (ex : List (String → Bool)) (cs : FSChildren)
    (base : String) :
    ∀ e ∈ (archiveChildren ex cs base).1,
      e.typeflag = typeReg ∨ e.typeflag = typeLink ∨ e.typeflag = typeDir :=
  match cs with
  | .nil => by
    intro e he
    simp [archiveChildren] at he
  | .cons c rest => by
    intro e he
    simp only [archiveChildren] at he
    split at he
    · exact archiveNode_flags ex c _ e he
    · simp only [List.mem_append] at he
      rcases he with he | he
      · exact archiveNode_flags ex c _ e he
      · exact archiveChildren_flags ex rest base e he

end

/-- C10: the archiver writes every recorded symlink as a tar header
whose typeflag is the hard-link flag `TypeLink` ('1'), carrying the
symlink's target in `Linkname` with size 0; and no entry it ever emits
(for any tree) carries the tar symlink flag '2'. -/
theorem symlink_entries_use_hardlink_flag (ex : List (String → Bool))
    (path name target : String)
    (hsafe : isPathSafe path = true)
    (hx : isExcluded ex path = false) :
    archiveNode ex (.symlink name target) path
        = ([{ name := path, typeflag := typeLink, linkname := target,
              size := 0 }], none)
    ∧ typeLink = 49
    ∧ ∀ (node : FSNode) (p : String) (e : TarEntry),
        e ∈ (archiveNode ex node p).1 → e.typeflag ≠ typeSymlink := by
  refine ⟨by simp [archiveNode, hsafe, hx], rfl, ?_⟩
  intro node p e he
  rcases archiveNode_flags ex node p e he with h | h | h <;>
    simp [h, typeReg, typeLink, typeDir, typeSymlink]

/-- Witness for `symlink_entries_use_hardlink_flag` at a concrete
symlink node and empty exclude set. -/
theorem symlink_entries_use_hardlink_flag_witness :
    archiveNode [] (.symlink "ln" "/etc/hosts") "root/ln"
        = ([{ name := "root/ln", typeflag := typeLink,
              linkname := "/etc/hosts", size := 0 }], none)
    ∧ typeLink = 49 :=
  ⟨(symlink_entries_use_hardlink_flag [] "root/ln" "ln" "/etc/hosts"
      (by decide) (by decide)).1,
   (symlink_entries_use_hardlink_flag [] "root/ln" "ln" "/etc/hosts"
      (by decide) (by decide)).2.1⟩

/-- Go `strings.ToLower` restricted to its effect on this comparison:
ASCII uppercase letters map to lowercase; all other characters are kept
(no non-ASCII character has an ASCII simple lowercase mapping, so the
`http://`/`https://` comparisons below are unaffected by the
restriction). -/
def toLowerGo (c : Char) : Char :=
  if 'A' ≤ c ∧ c ≤ 'Z' then Char.ofNat (c.toNat + 32) else c

/-- Go `strings.HasPrefix s p`: does `s` start with `p`? -/
def startsWith : List Char → List Char → Bool
  | _, [] => true
  | [], _ :: _ => false
  | c :: s, d :: p => c == d && startsWith s p

/-- `normalizeEndpoint` (adapter.go): the empty endpoint is returned
as-is; otherwise surrounding whitespace is trimmed and, unless the
result already begins with a case-insensitive `http://` or `https://`
(the original case is preserved), `https://` is prepended. -/
def normalizeEndpoint (endpoint : List Char) : List Char :=
  if endpoint = [] then endpoint
  else
    let t := trimSpaceGo endpoint
    if startsWith (t.map toLowerGo) "http://".data
        || startsWith (t.map toLowerGo) "https://".data then t
    else "https://".data ++ t

theorem dropWhile_eq_self_of_head (p : α → Bool) (l : List α)
    (h : ∀ a ∈ l.head?, p a = false) : l.dropWhile p = l := by
  cases l with
  | nil => rfl
  | cons a t =>
    have ha : p a = false := h a rfl
    simp [List.dropWhile_cons, ha]

theorem head?_dropWhile_false (p : α → Bool) (l : List α) :
    ∀ a ∈ (l.dropWhile p).head?, p a = false := by
  intro a ha
  have h := List.head?_dropWhile_not p l
  rw [Option.mem_def] at ha
  rw [ha] at h
  exact h

theorem getLast?_dropWhile (p : α → Bool) (l : List α)
    (h : l.dropWhile p ≠ []) : (l.dropWhile p).getLast? = l.getLast? := by
  induction l with
  | nil => rfl
  | cons a t ih =>
    cases ha : p a with
    | true =>
      rw [List.dropWhile_cons_of_pos ha] at h ⊢
      have ht : t ≠ [] := by
        intro he
        subst he
        simp at h
      rw [ih h]
      cases t with
      | nil => exact absurd rfl ht
      | cons b bs => rw [List.getLast?_cons_cons]
    | false => rw [List.dropWhile_cons_of_neg (by simp [ha])]

theorem trimSpaceGo_head (x : List Char) :
    ∀ c ∈ (trimSpaceGo x).head?, isSpaceGo c = false := by
  intro c hc
  unfold trimSpaceGo at hc
  rw [List.head?_reverse] at hc
  by_cases hB : (x.dropWhile isSpaceGo).reverse.dropWhile isSpaceGo = []
  · rw [hB] at hc
    simp at hc
  · rw [getLast?_dropWhile _ _ hB, List.getLast?_reverse] at hc
    exact head?_dropWhile_false isSpaceGo x c hc

theorem trimSpaceGo_getLast (x : List Char) :
    ∀ c ∈ (trimSpaceGo x).getLast?, isSpaceGo c = false := by
  intro c hc
  unfold trimSpaceGo at hc
  rw [List.getLast?_reverse] at hc
  exact head?_dropWhile_false isSpaceGo _ c hc

theorem trimSpaceGo_eq_self (x : List Char)
    (hh : ∀ c ∈ x.head?, isSpaceGo c = false)
    (hl : ∀ c ∈ x.getLast?, isSpaceGo c = false) : trimSpaceGo x = x := by
  unfold trimSpaceGo
  rw [dropWhile_eq_self_of_head _ _ hh]
  rw [dropWhile_eq_self_of_head _ _ (by simpa using hl)]
  exact List.reverse_reverse x

theorem trimSpaceGo_idem (x : List Char) :
    trimSpaceGo (trimSpaceGo x) = trimSpaceGo x :=
  trimSpaceGo_eq_self _ (trimSpaceGo_head x) (trimSpaceGo_getLast x)

theorem trimSpaceGo_https_append (t : List Char)
    (hl : ∀ c ∈ t.getLast?, isSpaceGo c = false) :
    trimSpaceGo ("https://".data ++ t) = "https://".data ++ t := by
  refine trimSpaceGo_eq_self _ ?_ ?_
  · intro c hc
    simp only [List.head?_append] at hc
    have hh : ("https://".data : List Char).head? = some 'h' := by decide
    rw [hh] at hc
    simp only [Option.or_some, Option.mem_def, Option.some.injEq] at hc
    subst hc
    decide
  · intro c hc
    rw [List.getLast?_append] at hc
    cases t with
    | nil =>
      simp only [List.getLast?_nil, Option.none_or] at hc
      have hh : ("https://".data : List Char).getLast? = some '/' := by decide
      rw [hh] at hc
      simp only [Option.mem_def, Option.some.injEq] at hc
      subst hc
      decide
    | cons b bs =>
      have hbs : ((b :: bs).getLast?).isSome := by
        rw [List.getLast?_cons]
        rfl
      rw [Option.or_of_isSome hbs] at hc
      exact hl c hc

theorem startsWith_append_self (p s : List Char) :
    startsWith (p ++ s) p = true := by
  induction p with
  | nil => cases s <;> rfl
  | cons c cs ih => simp [startsWith, ih]

theorem map_toLowerGo_https :
    ("https://".data ++ t).map toLowerGo = "https://".data ++ t.map toLowerGo := by
  simp [String.data]
  decide

/-- C7: `normalizeEndpoint` is idempotent, and on every non-empty input
its result begins (case-insensitively; the original case is preserved)
with `http://` or `https://`. -/
theorem normalizeEndpoint_idem_and_scheme (e : List Char) :
    normalizeEndpoint (normalizeEndpoint e) = normalizeEndpoint e
    ∧ (e ≠ [] →
        startsWith ((normalizeEndpoint e).map toLowerGo) "http://".data = true
        ∨ startsWith ((normalizeEndpoint e).map toLowerGo) "https://".data
            = true) := by
  by_cases he : e = []
  · subst he
    exact ⟨rfl, fun h => absurd rfl h⟩
  · have hu : normalizeEndpoint e =
        if startsWith ((trimSpaceGo e).map toLowerGo) "http://".data
            || startsWith ((trimSpaceGo e).map toLowerGo) "https://".data
        then trimSpaceGo e
        else "https://".data ++ trimSpaceGo e := by
      simp [normalizeEndpoint, he]
    by_cases hpre : startsWith ((trimSpaceGo e).map toLowerGo) "http://".data
        || startsWith ((trimSpaceGo e).map toLowerGo) "https://".data
    · have hres : normalizeEndpoint e = trimSpaceGo e := by rw [hu, if_pos hpre]
      have hte : trimSpaceGo e ≠ [] := by
        intro h0
        rw [h0] at hpre
        simp [startsWith, String.data] at hpre
      constructor
      · rw [hres]
        have : normalizeEndpoint (trimSpaceGo e) =
            if startsWith ((trimSpaceGo (trimSpaceGo e)).map toLowerGo)
                  "http://".data
                || startsWith ((trimSpaceGo (trimSpaceGo e)).map toLowerGo)
                  "https://".data
            then trimSpaceGo (trimSpaceGo e)
            else "https://".data ++ trimSpaceGo (trimSpaceGo e) := by
          simp [normalizeEndpoint, hte]
        rw [this, trimSpaceGo_idem, if_pos hpre]
      · intro _
        rw [hres]
        rcases Bool.or_eq_true_iff.mp hpre with h | h
        · exact Or.inl h
        · exact Or.inr h
    · have hres : normalizeEndpoint e = "https://".data ++ trimSpaceGo e := by
        rw [hu, if_neg hpre]
      have hne : "https://".data ++ trimSpaceGo e ≠ [] := by
        simp [String.data]
      have htrim : trimSpaceGo ("https://".data ++ trimSpaceGo e)
          = "https://".data ++ trimSpaceGo e :=
        trimSpaceGo_https_append _ (trimSpaceGo_getLast e)
      have hsw : startsWith (("https://".data ++ trimSpaceGo e).map toLowerGo)
          "https://".data = true := by
        rw [map_toLowerGo_https]
        exact startsWith_append_self _ _
      constructor
      · rw [hres]
        have : normalizeEndpoint ("https://".data ++ trimSpaceGo e) =
            if startsWith ((trimSpaceGo ("https://".data ++ trimSpaceGo e)).map
                  toLowerGo) "http://".data
                || startsWith ((trimSpaceGo ("https://".data
                      ++ trimSpaceGo e)).map toLowerGo) "https://".data
            then trimSpaceGo ("https://".data ++ trimSpaceGo e)
            else "https://".data ++ trimSpaceGo ("https://".data ++ trimSpaceGo e) := by
          simp [normalizeEndpoint, hne]
        rw [this, htrim, if_pos (by rw [hsw, Bool.or_true])]
      · intro _
        rw [hres]
        exact Or.inr hsw

/-- Witness for `normalizeEndpoint_idem_and_scheme` at the concrete
endpoint "s3.example.com": normalisation prepends `https://` once and
is stable. -/
theorem normalizeEndpoint_idem_and_scheme_witness :
    normalizeEndpoint (normalizeEndpoint "s3.example.com".data)
        = normalizeEndpoint "s3.example.com".data
    ∧ (startsWith ((normalizeEndpoint "s3.example.com".data).map toLowerGo)
          "http://".data = true
        ∨ startsWith ((normalizeEndpoint "s3.example.com".data).map toLowerGo)
            "https://".data = true) :=
  ⟨(normalizeEndpoint_idem_and_scheme "s3.example.com".data).1,
   (normalizeEndpoint_idem_and_scheme "s3.example.com".data).2 (by decide)⟩

end S3bacup
